import Mathlib

/-!
Verification of the CacheFS cache engine against its specification.

The definitions below are a shallow embedding of the C sources:
  * `cache_block.c`  — the on-disk block store (hashing, read/write,
    range/file invalidation, LRU eviction, stats);
  * `cache_meta.c`   — the SQLite metadata store (attribute records,
    negative entries, directory listings) and the older LMDB variant
    that is also present in the file;
  * `cache_coherency.c` — the open-time revalidation logic.

Byte strings (backend paths, block contents, entry names) are modelled as
`List Nat` of byte values (paths in the counterexamples are ASCII, where the
C `char` arithmetic agrees with `Nat`).  Machine counters (`size_t`) are
modelled as `Nat`; the 64-bit wrap of the path hash, which is semantically
relevant (it is printed into the block file name), is kept explicit.
The filesystem and SQLite are idealized as always succeeding; `time(NULL)`
is an explicit `now` argument.
-/

set_option autoImplicit false

namespace CacheFS

/-- A byte string: backend path, block content, or directory entry name. -/
abbrev Bytes := List Nat

/-- `unsigned long` is 64 bits wide on the supported platforms. -/
def U64 : Nat := 2 ^ 64

/-- DJB2 hash of a path (`hash_path` in cache_block.c):
`hash = 5381; hash = hash * 33 + c` for each byte, wrapping at 64 bits. -/
def hash_path (path : Bytes) : Nat :=
  path.foldl (fun h c => (h * 33 + c) % U64) 5381

/-- The identity of a block file on disk.  `get_block_path` names the file
`blocks/XX/YY/%016lx-%zu` where `XX`/`YY` are bytes of the hash; the pair
(64-bit path hash, block index) determines the name and vice versa, so the
store key is exactly this pair. -/
abbrev BlockKey := Nat × Nat

/-- `get_block_path` (cache_block.c): the storage key of `(path, block_idx)`.
Note that the backend path itself does not appear in the name, only its
64-bit DJB2 hash. -/
def get_block_path (path : Bytes) (block_idx : Nat) : BlockKey :=
  (hash_path path, block_idx)

/-- One block file: its content and its last-access time (the file's atime,
used by the LRU eviction scan). -/
structure BlockRec where
  data : Bytes
  atime : Nat
deriving DecidableEq

/-- Per-mount block cache configuration (`struct cache_block_ctx` fields
`block_size` and `max_cache_size`). -/
structure BlockCfg where
  block_size : Nat
  max_cache_size : Nat
deriving DecidableEq

/-- The mutable state of the block store: the block files present on disk,
the running `current_cache_size` counter, and a logical clock used to stamp
atimes. -/
structure BlockState where
  blocks : List (BlockKey × BlockRec)
  current_cache_size : Nat
  clock : Nat
deriving DecidableEq

/-- First block record stored under a key (a directory holds at most one
file per name, so keys are unique in every reachable state). -/
def findRec : List (BlockKey × BlockRec) → BlockKey → Option BlockRec
  | [], _ => none
  | b :: bs, k => if b.1 = k then some b.2 else findRec bs k

/-- Remove every block file with the given name (`unlink`). -/
def eraseKey (l : List (BlockKey × BlockRec)) (k : BlockKey) :
    List (BlockKey × BlockRec) :=
  l.filter (fun b => b.1 ≠ k)

/-- Total size in bytes of a list of block files. -/
def sumSizes (l : List (BlockKey × BlockRec)) : Nat :=
  (l.map (fun b => b.2.data.length)).sum

/-- Total bytes of all block files actually present in the store
(`calculate_cache_size` recomputes exactly this by scanning the tree). -/
def actualBytes (s : BlockState) : Nat := sumSizes s.blocks

/-- `cache_block_init` on a fresh cache root: no blocks, so the scan in
`calculate_cache_size` returns 0. -/
def cache_block_init : BlockState := ⟨[], 0, 0⟩

/-- `cache_block_read`: open the block file named by the path hash and
index and `pread(size, offset)` from it; `none` models the `-1` returned
when the file does not exist. -/
def cache_block_read (s : BlockState) (path : Bytes)
    (block_idx size offset : Nat) : Option Bytes :=
  (findRec s.blocks (get_block_path path block_idx)).map
    (fun r => (r.data.drop offset).take size)

/-- `cache_block_exists`: `stat` on the block file name succeeds. -/
def cache_block_exists (s : BlockState) (path : Bytes) (block_idx : Nat) : Bool :=
  (findRec s.blocks (get_block_path path block_idx)).isSome

/-- The eviction loop of `evict_lru_blocks`: walk the collected blocks in
sorted order and unlink while `current_cache_size - evicted_size > target`;
returns the blocks actually unlinked.  `evicted` is the running
`evicted_size` accumulator. -/
def evictChoose (counter target : Nat) :
    List (BlockKey × BlockRec) → Nat → List (BlockKey × BlockRec)
  | [], _ => []
  | b :: rest, evicted =>
    if counter - evicted > target then
      b :: evictChoose counter target rest (evicted + b.2.data.length)
    else []

/-- The block list collected by the directory walk of `evict_lru_blocks`,
sorted by atime ascending (`qsort` with `compare_block_atime`). -/
def sortedBlocks (s : BlockState) : List (BlockKey × BlockRec) :=
  List.insertionSort
    (fun a b : BlockKey × BlockRec => a.2.atime ≤ b.2.atime) s.blocks

/-- `evict_lru_blocks`: if the counter exceeds `target`, collect all blocks
with their atimes, sort oldest-first, unlink until the counter net of
evicted bytes is at or below `target`, then subtract the evicted bytes
from the counter. -/
def evict_lru_blocks (s : BlockState) (target : Nat) : BlockState :=
  if s.current_cache_size ≤ target then s
  else
    { blocks := s.blocks.filter (fun b => b.1 ∉
        (evictChoose s.current_cache_size target (sortedBlocks s) 0).map
          Prod.fst)
      current_cache_size := s.current_cache_size -
        sumSizes (evictChoose s.current_cache_size target (sortedBlocks s) 0)
      clock := s.clock }

/-- `cache_block_write`: create/truncate the block file named by the path
hash and index, write the buffer, add the written size to the counter, and
if `max_cache_size > 0` and the counter now exceeds it, run a synchronous
eviction pass down to 90% of the maximum. -/
def cache_block_write (cfg : BlockCfg) (s : BlockState) (path : Bytes)
    (block_idx : Nat) (data : Bytes) : BlockState :=
  let k := get_block_path path block_idx
  let s1 : BlockState :=
    { blocks := (k, ⟨data, s.clock⟩) :: eraseKey s.blocks k
      current_cache_size := s.current_cache_size + data.length
      clock := s.clock + 1 }
  if 0 < cfg.max_cache_size ∧ cfg.max_cache_size < s1.current_cache_size then
    evict_lru_blocks s1 (cfg.max_cache_size * 9 / 10)
  else s1

/-- Unlink one block file if present and subtract its size from the counter
(the body of the loop in `cache_block_invalidate_range`). -/
def removeBlock (s : BlockState) (k : BlockKey) : BlockState :=
  match findRec s.blocks k with
  | none => s
  | some r =>
    { blocks := eraseKey s.blocks k
      current_cache_size := s.current_cache_size - r.data.length
      clock := s.clock }

/-- `cache_block_invalidate_range`: delete the blocks with index from
`start_block = offset / block_size` up to and including
`end_block = (offset + size) / block_size`. -/
def cache_block_invalidate_range (cfg : BlockCfg) (s : BlockState)
    (path : Bytes) (offset size : Nat) : BlockState :=
  (List.range' (offset / cfg.block_size)
    ((offset + size) / cfg.block_size - offset / cfg.block_size + 1)).foldl
    (fun st i => removeBlock st (get_block_path path i)) s

/-- `cache_block_invalidate_file`: scan the fan-out directory of the path's
hash and unlink every file whose name starts with `%016lx-` of that hash,
subtracting each file's size from the counter. -/
def cache_block_invalidate_file (s : BlockState) (path : Bytes) : BlockState :=
  let h := hash_path path
  { blocks := s.blocks.filter (fun b => b.1.1 ≠ h)
    current_cache_size :=
      s.current_cache_size - sumSizes (s.blocks.filter (fun b => b.1.1 = h))
    clock := s.clock }

/-- `cache_block_get_stats`: report the counter and the configured limit. -/
def cache_block_get_stats (cfg : BlockCfg) (s : BlockState) : Nat × Nat :=
  (s.current_cache_size, cfg.max_cache_size)

/-- A read of a cached block updates the block file's atime (tracked
implicitly by the filesystem under the `pread` in `cache_block_read`). -/
def touchBlock (s : BlockState) (path : Bytes) (block_idx : Nat) : BlockState :=
  match findRec s.blocks (get_block_path path block_idx) with
  | none => s
  | some r =>
    { blocks := (get_block_path path block_idx, { r with atime := s.clock }) ::
        eraseKey s.blocks (get_block_path path block_idx)
      current_cache_size := s.current_cache_size
      clock := s.clock + 1 }

/-- Block-store states reachable from a fresh cache by the exported
operations (plus atime refreshes from reads). -/
inductive Reachable (cfg : BlockCfg) : BlockState → Prop where
  | init : Reachable cfg cache_block_init
  | write (s : BlockState) (path : Bytes) (block_idx : Nat) (data : Bytes) :
      Reachable cfg s → Reachable cfg (cache_block_write cfg s path block_idx data)
  | inv_range (s : BlockState) (path : Bytes) (offset size : Nat) :
      Reachable cfg s →
      Reachable cfg (cache_block_invalidate_range cfg s path offset size)
  | inv_file (s : BlockState) (path : Bytes) :
      Reachable cfg s → Reachable cfg (cache_block_invalidate_file s path)
  | touch (s : BlockState) (path : Bytes) (block_idx : Nat) :
      Reachable cfg s → Reachable cfg (touchBlock s path block_idx)

/-- Keys (block file names) are unique in the store. -/
def NodupKeys (s : BlockState) : Prop := (s.blocks.map Prod.fst).Nodup

/- ### Basic lemmas about the store representation -/

theorem findRec_filter_none {l : List (BlockKey × BlockRec)} {k : BlockKey}
    (p : BlockKey × BlockRec → Bool) (h : ∀ b, p b = true → b.1 ≠ k) :
    findRec (l.filter p) k = none := by
  induction l with
  | nil => rfl
  | cons b bs ih =>
    by_cases hb : p b = true
    · rw [List.filter_cons_of_pos hb]
      simp only [findRec, if_neg (h b hb)]
      exact ih
    · rw [List.filter_cons_of_neg (by simpa using hb)]
      exact ih

theorem findRec_eraseKey (l : List (BlockKey × BlockRec)) (k : BlockKey) :
    findRec (eraseKey l k) k = none := by
  refine findRec_filter_none _ (fun b hb => ?_)
  simpa using hb

theorem findRec_eraseKey_ne (l : List (BlockKey × BlockRec)) {k k' : BlockKey}
    (h : k' ≠ k) : findRec (eraseKey l k) k' = findRec l k' := by
  induction l with
  | nil => rfl
  | cons b bs ih =>
    by_cases hb : b.1 = k
    · have he : eraseKey (b :: bs) k = eraseKey bs k := by
        simp [eraseKey, List.filter_cons, hb]
      have hbk' : ¬ b.1 = k' := fun hc => h ((hc ▸ hb : k' = k))
      rw [he, ih]
      simp only [findRec, if_neg hbk']
    · have he : eraseKey (b :: bs) k = b :: eraseKey bs k := by
        simp [eraseKey, List.filter_cons, hb]
      rw [he]
      simp only [findRec, ih]

theorem findRec_eq_none_of_not_mem {l : List (BlockKey × BlockRec)}
    {k : BlockKey} (h : k ∉ l.map Prod.fst) : findRec l k = none := by
  induction l with
  | nil => rfl
  | cons b bs ih =>
    simp only [List.map_cons, List.mem_cons, not_or] at h
    simp only [findRec, if_neg (fun hc : b.1 = k => h.1 hc.symm)]
    exact ih h.2

/-- On a store with unique names, looking a key up after deleting an
arbitrary set of files yields either nothing or the original block. -/
theorem findRec_filter_of_nodup {l : List (BlockKey × BlockRec)} {k : BlockKey}
    (p : BlockKey × BlockRec → Bool) (hnd : (l.map Prod.fst).Nodup) :
    findRec (l.filter p) k = none ∨ findRec (l.filter p) k = findRec l k := by
  induction l with
  | nil => left; rfl
  | cons b bs ih =>
    rw [List.map_cons, List.nodup_cons] at hnd
    obtain ⟨hb1, hb2⟩ := hnd
    by_cases hk : b.1 = k
    · by_cases hb : p b = true
      · right
        rw [List.filter_cons_of_pos hb]
        simp [findRec, hk]
      · left
        rw [List.filter_cons_of_neg (by simpa using hb)]
        refine findRec_eq_none_of_not_mem ?_
        intro hmem
        rcases List.mem_map.1 hmem with ⟨x, hx, hxk⟩
        refine hb1 ?_
        rw [hk]
        exact List.mem_map.2 ⟨x, List.mem_of_mem_filter hx, hxk⟩
    · have hfind : findRec (b :: bs) k = findRec bs k := by
        simp [findRec, hk]
      by_cases hb : p b = true
      · rw [List.filter_cons_of_pos hb]
        have hstep : findRec (b :: bs.filter p) k = findRec (bs.filter p) k := by
          simp [findRec, hk]
        rw [hstep, hfind]
        exact ih hb2
      · rw [List.filter_cons_of_neg (by simpa using hb), hfind]
        exact ih hb2

/-- A read depends only on the block files present. -/
theorem cache_block_read_congr {s s' : BlockState} (h : s'.blocks = s.blocks)
    (path : Bytes) (j sz off : Nat) :
    cache_block_read s' path j sz off = cache_block_read s path j sz off := by
  simp only [cache_block_read, h]

/-- If a state's block files are a sub-selection of another's (which has
unique names), each read returns either the other state's answer or a miss. -/
theorem cache_block_read_filter {s s' : BlockState}
    {p : BlockKey × BlockRec → Bool} (h : s'.blocks = s.blocks.filter p)
    (hnd : NodupKeys s) (path : Bytes) (j sz off : Nat) :
    cache_block_read s' path j sz off = cache_block_read s path j sz off ∨
    cache_block_read s' path j sz off = none := by
  simp only [cache_block_read, h]
  rcases findRec_filter_of_nodup p (k := get_block_path path j) hnd with h' | h'
  · right; rw [h']; rfl
  · left; rw [h']

/-- Eviction only removes block files: the surviving set is either the
original set or a sub-selection of it. -/
theorem evict_blocks_cases (s : BlockState) (t : Nat) :
    (evict_lru_blocks s t).blocks = s.blocks ∨
    ∃ p : BlockKey × BlockRec → Bool,
      (evict_lru_blocks s t).blocks = s.blocks.filter p := by
  simp only [evict_lru_blocks]
  split
  · left; rfl
  · right; exact ⟨_, rfl⟩

/-- The state written by `cache_block_write` before any eviction. -/
def writePre (s : BlockState) (k : BlockKey) (data : Bytes) : BlockState :=
  { blocks := (k, ⟨data, s.clock⟩) :: eraseKey s.blocks k
    current_cache_size := s.current_cache_size + data.length
    clock := s.clock + 1 }

theorem cache_block_write_eq (cfg : BlockCfg) (s : BlockState) (path : Bytes)
    (block_idx : Nat) (data : Bytes) :
    cache_block_write cfg s path block_idx data =
      (if 0 < cfg.max_cache_size ∧
          cfg.max_cache_size < s.current_cache_size + data.length then
        evict_lru_blocks (writePre s (get_block_path path block_idx) data)
          (cfg.max_cache_size * 9 / 10)
      else writePre s (get_block_path path block_idx) data) := rfl

theorem nodupKeys_writePre {s : BlockState} (hnd : NodupKeys s) (k : BlockKey)
    (data : Bytes) : NodupKeys (writePre s k data) := by
  simp only [NodupKeys, writePre, List.map_cons, List.nodup_cons]
  refine ⟨?_, ?_⟩
  · intro hmem
    rcases List.mem_map.1 hmem with ⟨b, hb, hbk⟩
    have hkeep := List.of_mem_filter hb
    simp only [decide_eq_true_eq] at hkeep
    exact hkeep hbk
  · exact List.Nodup.sublist ((List.filter_sublist _).map Prod.fst) hnd

/- ### C1: block isolation across paths -/

/-- The two ASCII paths "ab" and "bA" collide under the 64-bit DJB2 hash. -/
theorem hash_collision_ab_bA :
    hash_path [97, 98] = hash_path [98, 65] ∧ ([97, 98] : Bytes) ≠ [98, 65] := by
  constructor
  · decide
  · decide

/-- C1, counterexample.  Writing block 0 of path "ab" and then reading
block 0 of the distinct path "bA" returns the bytes written for "ab":
the store keys blocks only by the 64-bit DJB2 hash of the path, and the
two paths collide, so one file's content is served for the other. -/
theorem c1_counterexample :
    cache_block_read
      (cache_block_write ⟨4, 0⟩ cache_block_init [97, 98] 0 [1, 2, 3])
      [98, 65] 0 3 0 = some [1, 2, 3] ∧ ([97, 98] : Bytes) ≠ [98, 65] := by
  constructor
  · decide
  · decide

/-- C1, amended: isolation holds exactly for paths with distinct 64-bit
DJB2 hashes.  (a) With no size limit configured, a write is read back
byte-exact.  (b) If `hash_path p1 ≠ hash_path p2` then, on a store with
unique file names, a write for `p1` leaves every read for `p2` either
unchanged or a miss (eviction may remove blocks) — never `p1`'s bytes. -/
theorem c1_amended :
    (∀ (cfg : BlockCfg) (s : BlockState) (p : Bytes) (i : Nat) (d : Bytes),
      cfg.max_cache_size = 0 →
      cache_block_read (cache_block_write cfg s p i d) p i d.length 0 = some d) ∧
    (∀ (cfg : BlockCfg) (s : BlockState) (p1 p2 : Bytes) (i j sz off : Nat)
      (d : Bytes), NodupKeys s → hash_path p1 ≠ hash_path p2 →
      cache_block_read (cache_block_write cfg s p1 i d) p2 j sz off =
        cache_block_read s p2 j sz off ∨
      cache_block_read (cache_block_write cfg s p1 i d) p2 j sz off = none) := by
  constructor
  · intro cfg s p i d hmax
    rw [cache_block_write_eq]
    rw [if_neg (by rw [hmax]; exact fun h => Nat.lt_irrefl 0 h.1)]
    simp [cache_block_read, writePre, findRec]
  · intro cfg s p1 p2 i j sz off d hnd hne
    have hkeys : get_block_path p1 i ≠ get_block_path p2 j := by
      intro hc
      exact hne (congrArg Prod.fst hc)
    have hs1 : cache_block_read (writePre s (get_block_path p1 i) d) p2 j sz off =
        cache_block_read s p2 j sz off := by
      simp only [cache_block_read, writePre, findRec, if_neg hkeys]
      rw [findRec_eraseKey_ne _ (Ne.symm hkeys)]
    have hnd1 : NodupKeys (writePre s (get_block_path p1 i) d) :=
      nodupKeys_writePre hnd _ d
    rw [cache_block_write_eq]
    by_cases hcond :
        0 < cfg.max_cache_size ∧
          cfg.max_cache_size < s.current_cache_size + d.length
    · rw [if_pos hcond]
      rcases evict_blocks_cases (writePre s (get_block_path p1 i) d)
          (cfg.max_cache_size * 9 / 10) with h | ⟨p, hp⟩
      · left
        rw [cache_block_read_congr h, hs1]
      · rcases cache_block_read_filter hp hnd1 p2 j sz off with h | h
        · left; rw [h, hs1]
        · right; exact h
    · rw [if_neg hcond]
      left; exact hs1

/-- Witness for `c1_amended` at concrete inputs. -/
theorem c1_amended_witness :
    cache_block_read
      (cache_block_write ⟨4, 0⟩ cache_block_init [97] 0 [5, 6]) [97] 0 2 0 =
      some [5, 6] ∧
    (cache_block_read
      (cache_block_write ⟨4, 0⟩ cache_block_init [97] 0 [5, 6]) [98] 0 2 0 =
        cache_block_read cache_block_init [98] 0 2 0 ∨
     cache_block_read
      (cache_block_write ⟨4, 0⟩ cache_block_init [97] 0 [5, 6]) [98] 0 2 0 =
        none) := by
  constructor
  · exact c1_amended.1 ⟨4, 0⟩ cache_block_init [97] 0 [5, 6] rfl
  · exact c1_amended.2 ⟨4, 0⟩ cache_block_init [97] [98] 0 0 2 0 [5, 6]
      (by simp [NodupKeys, cache_block_init]) (by decide)

/- ### C4: range invalidation -/

theorem removeBlock_find_self (s : BlockState) (k : BlockKey) :
    findRec (removeBlock s k).blocks k = none := by
  unfold removeBlock
  cases hf : findRec s.blocks k with
  | none => simpa using hf
  | some r => simpa using findRec_eraseKey s.blocks k

theorem removeBlock_find_ne (s : BlockState) {k k' : BlockKey} (h : k' ≠ k) :
    findRec (removeBlock s k).blocks k' = findRec s.blocks k' := by
  unfold removeBlock
  cases hf : findRec s.blocks k with
  | none => rfl
  | some r => simpa using findRec_eraseKey_ne s.blocks h

theorem fold_remove_not_mem (path : Bytes) (L : List Nat) (s : BlockState)
    (k : BlockKey) (h : ∀ i ∈ L, get_block_path path i ≠ k) :
    findRec ((L.foldl (fun st i => removeBlock st (get_block_path path i)) s).blocks) k =
      findRec s.blocks k := by
  induction L generalizing s with
  | nil => rfl
  | cons j L ih =>
    rw [List.foldl_cons]
    rw [ih _ (fun i hi => h i (List.mem_cons_of_mem j hi))]
    exact removeBlock_find_ne s (fun hc => h j (List.mem_cons_self j L) hc.symm)

theorem fold_remove_mem (path : Bytes) (L : List Nat) (s : BlockState)
    (i : Nat) (h : i ∈ L) :
    findRec ((L.foldl (fun st i => removeBlock st (get_block_path path i)) s).blocks)
      (get_block_path path i) = none := by
  induction L generalizing s with
  | nil => cases h
  | cons j L ih =>
    rw [List.foldl_cons]
    by_cases hmem : i ∈ L
    · exact ih _ hmem
    · have hij : i = j := by
        rcases List.mem_cons.1 h with h' | h'
        · exact h'
        · exact absurd h' hmem
      rw [fold_remove_not_mem path L _ _ (fun i' hi' hc => by
        have : i' = i := congrArg Prod.snd hc
        exact hmem (this ▸ hi'))]
      rw [hij]
      exact removeBlock_find_self s _

/-- C4, counterexample.  With block size 4, invalidating the written range
[0, 4) also deletes block 1, whose byte range [4, 8) does not intersect
[0, 4): `end_block = (offset + size) / block_size` lands on the block that
starts exactly at the end of the range. -/
theorem c4_counterexample :
    cache_block_exists
      (cache_block_write ⟨4, 0⟩ cache_block_init [97] 1 [9]) [97] 1 = true ∧
    1 * 4 ≥ 0 + 4 ∧
    cache_block_exists
      (cache_block_invalidate_range ⟨4, 0⟩
        (cache_block_write ⟨4, 0⟩ cache_block_init [97] 1 [9]) [97] 0 4)
      [97] 1 = false := by
  refine ⟨by decide, by decide, by decide⟩

/-- C4, amended.  `cache_block_invalidate_range(path, o, n)` deletes exactly
the blocks of `path` with index in `[o / block_size, (o + n) / block_size]`:
every block whose byte range intersects `[o, o + n)` is in that window and
is deleted, but the window additionally contains the block starting at
`o + n` when `o + n` is a multiple of the block size (and the block at
`o / block_size` when `n = 0`); all block files outside the window, and all
blocks of paths with a different hash, are left unchanged. -/
theorem c4_amended (cfg : BlockCfg) (s : BlockState) (path : Bytes)
    (o n i : Nat) (hbs : 0 < cfg.block_size) :
    (i * cfg.block_size < o + n → o < (i + 1) * cfg.block_size →
      cache_block_exists (cache_block_invalidate_range cfg s path o n) path i
        = false) ∧
    (o / cfg.block_size ≤ i → i ≤ (o + n) / cfg.block_size →
      cache_block_exists (cache_block_invalidate_range cfg s path o n) path i
        = false) ∧
    (∀ k : BlockKey,
      k.1 ≠ hash_path path ∨ k.2 < o / cfg.block_size ∨
        (o + n) / cfg.block_size < k.2 →
      findRec (cache_block_invalidate_range cfg s path o n).blocks k =
        findRec s.blocks k) := by
  have hwin : ∀ j, o / cfg.block_size ≤ j → j ≤ (o + n) / cfg.block_size →
      j ∈ List.range' (o / cfg.block_size)
        ((o + n) / cfg.block_size - o / cfg.block_size + 1) := by
    intro j h1 h2
    rw [List.mem_range'_1]
    refine ⟨h1, ?_⟩
    have hse : o / cfg.block_size ≤ (o + n) / cfg.block_size :=
      Nat.div_le_div_right (Nat.le_add_right o n)
    omega
  refine ⟨?_, ?_, ?_⟩
  · intro h1 h2
    have hi1 : i ≤ (o + n) / cfg.block_size :=
      (Nat.le_div_iff_mul_le hbs).2 (Nat.le_of_lt h1)
    have hi2 : o / cfg.block_size ≤ i := by
      have := (Nat.div_lt_iff_lt_mul hbs).2 h2
      omega
    simp only [cache_block_exists, cache_block_invalidate_range]
    rw [fold_remove_mem path _ s i (hwin i hi2 hi1)]
    rfl
  · intro h1 h2
    simp only [cache_block_exists, cache_block_invalidate_range]
    rw [fold_remove_mem path _ s i (hwin i h1 h2)]
    rfl
  · intro k hk
    simp only [cache_block_invalidate_range]
    refine fold_remove_not_mem path _ s k (fun j hj hc => ?_)
    rw [List.mem_range'_1] at hj
    have hse : o / cfg.block_size ≤ (o + n) / cfg.block_size :=
      Nat.div_le_div_right (Nat.le_add_right o n)
    rcases hk with hk | hk | hk
    · exact hk ((congrArg Prod.fst hc).symm.trans rfl)
    · have : k.2 = j := (congrArg Prod.snd hc).symm
      omega
    · have : k.2 = j := (congrArg Prod.snd hc).symm
      omega

/-- Witness for `c4_amended` at concrete inputs. -/
theorem c4_amended_witness :
    (cache_block_exists
      (cache_block_invalidate_range ⟨4, 0⟩
        (cache_block_write ⟨4, 0⟩ cache_block_init [97] 0 [9]) [97] 1 6)
      [97] 0 = false) ∧
    (cache_block_exists
      (cache_block_invalidate_range ⟨4, 0⟩
        (cache_block_write ⟨4, 0⟩ cache_block_init [97] 0 [9]) [97] 1 6)
      [97] 1 = false) ∧
    (findRec (cache_block_invalidate_range ⟨4, 0⟩
        (cache_block_write ⟨4, 0⟩ cache_block_init [97] 3 [9]) [97] 1 6).blocks
      (get_block_path [97] 3) =
      findRec (cache_block_write ⟨4, 0⟩ cache_block_init [97] 3 [9]).blocks
        (get_block_path [97] 3)) := by
  refine ⟨?_, ?_, ?_⟩
  · exact (c4_amended ⟨4, 0⟩ _ [97] 1 6 0 (by decide)).1 (by decide) (by decide)
  · exact (c4_amended ⟨4, 0⟩ _ [97] 1 6 1 (by decide)).2.1 (by decide) (by decide)
  · exact (c4_amended ⟨4, 0⟩ _ [97] 1 6 0 (by decide)).2.2 _ (by decide)

/- ### Size accounting lemmas -/

@[simp] theorem sumSizes_nil : sumSizes [] = 0 := rfl

@[simp] theorem sumSizes_cons (b : BlockKey × BlockRec)
    (l : List (BlockKey × BlockRec)) :
    sumSizes (b :: l) = b.2.data.length + sumSizes l := by
  simp [sumSizes]

theorem sumSizes_append (l1 l2 : List (BlockKey × BlockRec)) :
    sumSizes (l1 ++ l2) = sumSizes l1 + sumSizes l2 := by
  simp [sumSizes]

theorem sumSizes_perm {l1 l2 : List (BlockKey × BlockRec)}
    (h : List.Perm l1 l2) : sumSizes l1 = sumSizes l2 := by
  unfold sumSizes
  exact (h.map (fun b => b.2.data.length)).sum_eq

theorem sumSizes_notmem_partition (l : List (BlockKey × BlockRec))
    (ks : List BlockKey) :
    sumSizes (l.filter (fun b => b.1 ∉ ks)) +
      sumSizes (l.filter (fun b => b.1 ∈ ks)) = sumSizes l := by
  induction l with
  | nil => rfl
  | cons b bs ih =>
    by_cases hb : b.1 ∈ ks
    · rw [List.filter_cons_of_neg (by simpa using hb),
        List.filter_cons_of_pos (by simpa using hb)]
      simp only [sumSizes_cons]
      omega
    · rw [List.filter_cons_of_pos (by simpa using hb),
        List.filter_cons_of_neg (by simpa using hb)]
      simp only [sumSizes_cons]
      omega

theorem sumSizes_erase_partition (l : List (BlockKey × BlockRec))
    (k : BlockKey) :
    sumSizes (eraseKey l k) + sumSizes (l.filter (fun b => b.1 = k)) =
      sumSizes l := by
  induction l with
  | nil => rfl
  | cons b bs ih =>
    by_cases hb : b.1 = k
    · rw [eraseKey, List.filter_cons_of_neg (by simpa using hb),
        List.filter_cons_of_pos (by simpa using hb), ← eraseKey]
      simp only [sumSizes_cons]
      omega
    · rw [eraseKey, List.filter_cons_of_pos (by simpa using hb),
        List.filter_cons_of_neg (by simpa using hb), ← eraseKey]
      simp only [sumSizes_cons]
      omega

theorem sumSizes_hash_partition (l : List (BlockKey × BlockRec)) (h : Nat) :
    sumSizes (l.filter (fun b => b.1.1 ≠ h)) +
      sumSizes (l.filter (fun b => b.1.1 = h)) = sumSizes l := by
  induction l with
  | nil => rfl
  | cons b bs ih =>
    by_cases hb : b.1.1 = h
    · rw [List.filter_cons_of_neg (by simpa using hb),
        List.filter_cons_of_pos (by simpa using hb)]
      simp only [sumSizes_cons]
      omega
    · rw [List.filter_cons_of_pos (by simpa using hb),
        List.filter_cons_of_neg (by simpa using hb)]
      simp only [sumSizes_cons]
      omega

theorem filter_key_nil {l : List (BlockKey × BlockRec)} {k : BlockKey}
    (h : k ∉ l.map Prod.fst) : l.filter (fun b => b.1 = k) = [] := by
  induction l with
  | nil => rfl
  | cons b bs ih =>
    simp only [List.map_cons, List.mem_cons, not_or] at h
    rw [List.filter_cons_of_neg (by simp; exact fun hc => h.1 hc.symm)]
    exact ih h.2

theorem filter_eq_key_of_find {l : List (BlockKey × BlockRec)}
    (hnd : (l.map Prod.fst).Nodup) {k : BlockKey} {r : BlockRec}
    (h : findRec l k = some r) : l.filter (fun b => b.1 = k) = [(k, r)] := by
  induction l with
  | nil => cases h
  | cons b bs ih =>
    rw [List.map_cons, List.nodup_cons] at hnd
    by_cases hb : b.1 = k
    · simp only [findRec, if_pos hb] at h
      rw [List.filter_cons_of_pos (by simpa using hb)]
      rw [filter_key_nil (hb ▸ hnd.1)]
      obtain ⟨b1, b2⟩ := b
      simp only at hb h
      rw [hb, Option.some.inj h]
    · simp only [findRec, if_neg hb] at h
      rw [List.filter_cons_of_neg (by simpa using hb)]
      exact ih hnd.2 h

/-- Total evicted bytes equal the accumulated `evicted_size`, and the loop
either reached the target or exhausted the block list. -/
theorem evictChoose_spec (c t : Nat) (bs : List (BlockKey × BlockRec))
    (ev : Nat) :
    ∃ suf, bs = evictChoose c t bs ev ++ suf ∧
      (c - (ev + sumSizes (evictChoose c t bs ev)) ≤ t ∨ suf = []) := by
  induction bs generalizing ev with
  | nil => exact ⟨[], rfl, Or.inr rfl⟩
  | cons b rest ih =>
    by_cases hc : c - ev > t
    · obtain ⟨suf, hsuf, hd⟩ := ih (ev + b.2.data.length)
      refine ⟨suf, ?_, ?_⟩
      · rw [evictChoose, if_pos hc, List.cons_append, ← hsuf]
      · rw [evictChoose, if_pos hc]
        rcases hd with hd | hd
        · left
          simp only [sumSizes_cons]
          omega
        · right; exact hd
    · refine ⟨b :: rest, ?_, Or.inl ?_⟩
      · rw [evictChoose, if_neg hc, List.nil_append]
      · rw [evictChoose, if_neg hc]
        simp only [sumSizes_nil]
        omega

/-- Case analysis of one eviction pass on a store with unique file names:
either nothing happens (already at or below target), or some total `E` of
block bytes is unlinked, the counter and the actual bytes both drop by `E`,
and the pass stopped because it reached the target or ran out of blocks. -/
theorem evict_cases (s : BlockState) (t : Nat) (hnd : NodupKeys s) :
    (evict_lru_blocks s t = s ∧ s.current_cache_size ≤ t) ∨
    ∃ E, E ≤ actualBytes s ∧
      (evict_lru_blocks s t).current_cache_size = s.current_cache_size - E ∧
      actualBytes (evict_lru_blocks s t) = actualBytes s - E ∧
      NodupKeys (evict_lru_blocks s t) ∧
      (s.current_cache_size - E ≤ t ∨ E = actualBytes s) := by
  by_cases hct : s.current_cache_size ≤ t
  · left
    constructor
    · simp only [evict_lru_blocks, if_pos hct]
    · exact hct
  · right
    have hunf : evict_lru_blocks s t =
        { blocks := s.blocks.filter (fun b => b.1 ∉
            (evictChoose s.current_cache_size t (sortedBlocks s) 0).map
              Prod.fst)
          current_cache_size := s.current_cache_size -
            sumSizes (evictChoose s.current_cache_size t (sortedBlocks s) 0)
          clock := s.clock } := by
      simp only [evict_lru_blocks, if_neg hct]
    set chosen := evictChoose s.current_cache_size t (sortedBlocks s) 0
      with hchosen
    set ks := chosen.map Prod.fst with hks
    have hab : actualBytes s = sumSizes s.blocks := rfl
    have hperm : List.Perm (sortedBlocks s) s.blocks :=
      List.perm_insertionSort _ _
    have hsum_sorted : sumSizes (sortedBlocks s) = actualBytes s :=
      sumSizes_perm hperm
    obtain ⟨suf, hdec, hstop⟩ :=
      evictChoose_spec s.current_cache_size t (sortedBlocks s) 0
    rw [← hchosen] at hdec hstop
    -- keys of the sorted list are still unique
    have hnd_sorted : ((sortedBlocks s).map Prod.fst).Nodup :=
      ((hperm.map Prod.fst).nodup_iff).2 hnd
    -- the chosen prefix accounts for exactly `E` bytes of the store
    have hE_le : sumSizes chosen ≤ actualBytes s := by
      rw [← hsum_sorted, hdec, sumSizes_append]
      omega
    have hfilter_in :
        sumSizes (s.blocks.filter (fun b => b.1 ∈ ks)) = sumSizes chosen := by
      have h1 : List.Perm (s.blocks.filter (fun b => b.1 ∈ ks))
          ((sortedBlocks s).filter (fun b => b.1 ∈ ks)) :=
        (hperm.filter _).symm
      have h2 : (sortedBlocks s).filter (fun b => b.1 ∈ ks) =
          chosen.filter (fun b => b.1 ∈ ks) ++
            suf.filter (fun b => b.1 ∈ ks) := by
        rw [hdec, List.filter_append]
      have h3 : chosen.filter (fun b => b.1 ∈ ks) = chosen := by
        rw [List.filter_eq_self]
        intro b hb
        rw [hks]
        simp only [decide_eq_true_eq]
        exact List.mem_map_of_mem Prod.fst hb
      have h4 : suf.filter (fun b => b.1 ∈ ks) = [] := by
        rw [List.filter_eq_nil_iff]
        intro b hb
        simp only [decide_eq_true_eq]
        have hnd2 : (chosen.map Prod.fst ++ suf.map Prod.fst).Nodup := by
          rw [← List.map_append, ← hdec]
          exact hnd_sorted
        rw [List.nodup_append] at hnd2
        intro hmem
        exact hnd2.2.2 hmem (List.mem_map_of_mem Prod.fst hb)
      rw [sumSizes_perm h1, h2, sumSizes_append, h3, h4]
      simp
    refine ⟨sumSizes chosen, hE_le, ?_, ?_, ?_, ?_⟩
    · rw [hunf]
    · rw [hunf]
      show sumSizes (s.blocks.filter (fun b => b.1 ∉ ks)) = _
      have hpart := sumSizes_notmem_partition s.blocks ks
      rw [hfilter_in] at hpart
      omega
    · rw [hunf]
      show ((s.blocks.filter (fun b => b.1 ∉ ks)).map Prod.fst).Nodup
      exact List.Nodup.sublist ((List.filter_sublist _).map Prod.fst) hnd
    · rcases hstop with h | h
      · left; omega
      · right
        rw [← hsum_sorted, hdec, h, List.append_nil]

/- ### The block-store invariant and claims C5, C6 -/

/-- Invariant of every reachable block-store state: file names are unique,
the `current_cache_size` counter is an upper bound on the bytes actually
present, and (with a limit configured) the counter never exceeds the
limit once an operation has completed. -/
def Inv (cfg : BlockCfg) (s : BlockState) : Prop :=
  NodupKeys s ∧ actualBytes s ≤ s.current_cache_size ∧
    (cfg.max_cache_size = 0 ∨ s.current_cache_size ≤ cfg.max_cache_size)

theorem target_le (m : Nat) : m * 9 / 10 ≤ m := by omega

theorem inv_write (cfg : BlockCfg) {s : BlockState} (h : Inv cfg s)
    (path : Bytes) (block_idx : Nat) (data : Bytes) :
    Inv cfg (cache_block_write cfg s path block_idx data) := by
  obtain ⟨hnd, hac, hbound⟩ := h
  set k := get_block_path path block_idx with hk
  have hab : actualBytes s = sumSizes s.blocks := rfl
  have hnd1 : NodupKeys (writePre s k data) := nodupKeys_writePre hnd k data
  have herase := sumSizes_erase_partition s.blocks k
  have ha1 : actualBytes (writePre s k data) ≤
      (writePre s k data).current_cache_size := by
    show sumSizes ((k, ⟨data, s.clock⟩) :: eraseKey s.blocks k) ≤
      s.current_cache_size + data.length
    simp only [sumSizes_cons]
    omega
  rw [cache_block_write_eq, ← hk]
  by_cases hcond : 0 < cfg.max_cache_size ∧
      cfg.max_cache_size < s.current_cache_size + data.length
  · rw [if_pos hcond]
    rcases evict_cases (writePre s k data) (cfg.max_cache_size * 9 / 10)
        hnd1 with ⟨heq, hle⟩ | ⟨E, hE, hc, ha, hnd', hstop⟩
    · rw [heq]
      refine ⟨hnd1, ha1, Or.inr ?_⟩
      calc (writePre s k data).current_cache_size ≤ cfg.max_cache_size * 9 / 10 := hle
        _ ≤ cfg.max_cache_size := target_le _
    · refine ⟨hnd', ?_, Or.inr ?_⟩
      · rw [hc, ha]
        omega
      · rcases hstop with hstop | hstop
        · rw [hc]
          calc (writePre s k data).current_cache_size - E ≤
              cfg.max_cache_size * 9 / 10 := hstop
            _ ≤ cfg.max_cache_size := target_le _
        · -- all blocks were evicted; what is left of the counter is the
          -- accumulated drift, bounded by the pre-write counter
          rw [hc, hstop]
          show s.current_cache_size + data.length -
            sumSizes ((k, ⟨data, s.clock⟩) :: eraseKey s.blocks k) ≤ _
          simp only [sumSizes_cons]
          have h2 : s.current_cache_size ≤ cfg.max_cache_size := by
            rcases hbound with h | h
            · rw [h] at hcond; exact absurd hcond.1 (by omega)
            · exact h
          omega
  · rw [if_neg hcond]
    refine ⟨hnd1, ha1, ?_⟩
    rcases hbound with h | h
    · exact Or.inl h
    · rcases Nat.eq_zero_or_pos cfg.max_cache_size with h0 | h0
      · exact Or.inl h0
      · right
        push_neg at hcond
        exact hcond h0

theorem inv_removeBlock (cfg : BlockCfg) {s : BlockState} (h : Inv cfg s)
    (k : BlockKey) : Inv cfg (removeBlock s k) := by
  obtain ⟨hnd, hac, hbound⟩ := h
  unfold removeBlock
  cases hf : findRec s.blocks k with
  | none => exact ⟨hnd, hac, hbound⟩
  | some r =>
    have hab : actualBytes s = sumSizes s.blocks := rfl
    have hfe := filter_eq_key_of_find hnd hf
    have herase := sumSizes_erase_partition s.blocks k
    rw [hfe] at herase
    simp only [sumSizes_cons, sumSizes_nil] at herase
    refine ⟨?_, ?_, ?_⟩
    · exact List.Nodup.sublist ((List.filter_sublist _).map Prod.fst) hnd
    · show sumSizes (eraseKey s.blocks k) ≤ s.current_cache_size - r.data.length
      omega
    · rcases hbound with h | h
      · exact Or.inl h
      · right
        show s.current_cache_size - r.data.length ≤ cfg.max_cache_size
        omega

theorem inv_inv_range (cfg : BlockCfg) {s : BlockState} (h : Inv cfg s)
    (path : Bytes) (offset size : Nat) :
    Inv cfg (cache_block_invalidate_range cfg s path offset size) := by
  show Inv cfg ((List.range' (offset / cfg.block_size)
    ((offset + size) / cfg.block_size - offset / cfg.block_size + 1)).foldl
    (fun st i => removeBlock st (get_block_path path i)) s)
  generalize (List.range' (offset / cfg.block_size)
    ((offset + size) / cfg.block_size - offset / cfg.block_size + 1)) = L
  induction L generalizing s with
  | nil => exact h
  | cons j L ih =>
    rw [List.foldl_cons]
    exact ih (inv_removeBlock cfg h _)

theorem inv_inv_file (cfg : BlockCfg) {s : BlockState} (h : Inv cfg s)
    (path : Bytes) : Inv cfg (cache_block_invalidate_file s path) := by
  obtain ⟨hnd, hac, hbound⟩ := h
  have hab : actualBytes s = sumSizes s.blocks := rfl
  have hpart := sumSizes_hash_partition s.blocks (hash_path path)
  refine ⟨?_, ?_, ?_⟩
  · exact List.Nodup.sublist ((List.filter_sublist _).map Prod.fst) hnd
  · show sumSizes (s.blocks.filter _) ≤ s.current_cache_size - _
    omega
  · rcases hbound with h | h
    · exact Or.inl h
    · right
      show s.current_cache_size - _ ≤ cfg.max_cache_size
      omega

theorem inv_touch (cfg : BlockCfg) {s : BlockState} (h : Inv cfg s)
    (path : Bytes) (block_idx : Nat) :
    Inv cfg (touchBlock s path block_idx) := by
  obtain ⟨hnd, hac, hbound⟩ := h
  unfold touchBlock
  cases hf : findRec s.blocks (get_block_path path block_idx) with
  | none => exact ⟨hnd, hac, hbound⟩
  | some r =>
    have hab : actualBytes s = sumSizes s.blocks := rfl
    have hfe := filter_eq_key_of_find hnd hf
    have herase := sumSizes_erase_partition s.blocks (get_block_path path block_idx)
    rw [hfe] at herase
    simp only [sumSizes_cons, sumSizes_nil] at herase
    refine ⟨?_, ?_, hbound⟩
    · exact nodupKeys_writePre (s := s) hnd _ r.data
    · show sumSizes ((_, ⟨r.data, s.clock⟩) :: eraseKey s.blocks _) ≤
        s.current_cache_size
      simp only [sumSizes_cons]
      omega

/-- Every reachable block-store state satisfies the invariant. -/
theorem reachable_inv {cfg : BlockCfg} {s : BlockState}
    (h : Reachable cfg s) : Inv cfg s := by
  induction h with
  | init => exact ⟨List.nodup_nil, Nat.le_refl 0, Or.inr (Nat.zero_le _)⟩
  | write s path block_idx data _ ih => exact inv_write cfg ih path block_idx data
  | inv_range s path offset size _ ih => exact inv_inv_range cfg ih path offset size
  | inv_file s path _ ih => exact inv_inv_file cfg ih path
  | touch s path block_idx _ ih => exact inv_touch cfg ih path block_idx

/-- C5, confirmed.  When a size limit is configured, a `cache_block_write`
that pushes the counter above the limit triggers the synchronous eviction
pass (collect all blocks, sort by atime ascending, unlink oldest-first
until the counter net of the evicted bytes is at or below 90% of the
limit), and consequently after any `cache_block_write` from a reachable
state completes, `current_cache_size ≤ max_cache_size`. -/
theorem c5_theorem (cfg : BlockCfg) (s : BlockState) (path : Bytes)
    (block_idx : Nat) (data : Bytes) (hmax : 0 < cfg.max_cache_size)
    (hr : Reachable cfg s) :
    (cache_block_write cfg s path block_idx data).current_cache_size ≤
      cfg.max_cache_size := by
  have h := reachable_inv (Reachable.write s path block_idx data hr)
  rcases h.2.2 with h0 | h0
  · exact absurd hmax (by omega)
  · exact h0

/-- Witness for `c5_theorem`: a write of 12 bytes into a store limited to
10 bytes completes with the counter within the limit. -/
theorem c5_theorem_witness :
    0 < (10 : Nat) ∧
    (cache_block_write ⟨4, 10⟩ cache_block_init [97] 0
        [1, 2, 3, 4, 5, 6, 7, 8, 9, 10, 11, 12]).current_cache_size ≤ 10 :=
  ⟨by decide, c5_theorem ⟨4, 10⟩ cache_block_init [97] 0
    [1, 2, 3, 4, 5, 6, 7, 8, 9, 10, 11, 12] (by decide) Reachable.init⟩

/-- C6, the failing input.  Writing the same 2-byte block of the same path
twice (an overwrite of an already-cached block) leaves 2 bytes of block
files on disk, but `cache_block_get_stats` reports `current_bytes = 4`:
`cache_block_write` adds the written size to the counter without
subtracting the size of the block file it truncated. -/
theorem c6_bug_eval :
    (cache_block_get_stats ⟨4, 0⟩
      (cache_block_write ⟨4, 0⟩
        (cache_block_write ⟨4, 0⟩ cache_block_init [97] 0 [7, 7])
        [97] 0 [7, 7])).1 = 4 ∧
    actualBytes
      (cache_block_write ⟨4, 0⟩
        (cache_block_write ⟨4, 0⟩ cache_block_init [97] 0 [7, 7])
        [97] 0 [7, 7]) = 2 ∧
    (4 : Nat) ≠ 2 := by
  refine ⟨by decide, by decide, by decide⟩

/- ### The metadata store (cache_meta.c, SQLite implementation) -/

/-- `cache_entry_type_t` from cache_meta.h. -/
inductive cache_entry_type_t where
  | FILE
  | DIR
  | NEG
deriving DecidableEq

/-- The fields of `struct stat` that the metadata store reads. -/
structure StatBuf where
  st_size : Nat
  st_mtime : Nat
  st_ctime : Nat
  st_mode : Nat
  st_uid : Nat
  st_gid : Nat
  st_ino : Nat
deriving DecidableEq

/-- `S_ISDIR`: the file-type bits (mask 0o170000) equal 0o040000. -/
def S_ISDIR (mode : Nat) : Bool := Nat.land mode 61440 == 16384

/-- The TTL configuration held in `struct cache_meta_ctx`. -/
structure MetaCtx where
  meta_ttl : Nat
  dir_ttl : Nat
deriving DecidableEq

/-- One row of the SQLite `metadata` table (the `path` primary key is the
association-list key). -/
structure MetaRow where
  type : cache_entry_type_t
  size : Nat
  mtime : Nat
  ctime : Nat
  mode : Nat
  uid : Nat
  gid : Nat
  ino : Nat
  cached_at : Nat
  valid_until : Nat
deriving DecidableEq

abbrev MetaTable := List (Bytes × MetaRow)

/-- `SELECT ... WHERE <key column> = ?` on a table keyed by a path. -/
def assocFind {α : Type} : List (Bytes × α) → Bytes → Option α
  | [], _ => none
  | row :: t, p => if row.1 = p then some row.2 else assocFind t p

/-- `INSERT OR REPLACE` keyed by the path (the conflicting row, if any, is
deleted and the new row stored). -/
def assocReplace {α : Type} (t : List (Bytes × α)) (p : Bytes) (r : α) :
    List (Bytes × α) :=
  t.filter (fun row => row.1 ≠ p) ++ [(p, r)]

/-- `cache_meta_lookup` (SQLite): select the row for the path; on a hit,
copy all columns out — including the stored `ino` — and report
`valid = (now < valid_until)`. -/
def cache_meta_lookup (t : MetaTable) (path : Bytes) (now : Nat) :
    Option (MetaRow × Bool) :=
  (assocFind t path).map (fun r => (r, decide (now < r.valid_until)))

/-- `cache_meta_store` (SQLite): INSERT OR REPLACE a row with
`type = CACHE_ENTRY_FILE` (unconditionally), the stat's size, mtime, ctime,
mode, uid, gid and `st_ino`, `cached_at = now` and
`valid_until = now + meta_ttl`. -/
def cache_meta_store (ctx : MetaCtx) (t : MetaTable) (path : Bytes)
    (st : StatBuf) (now : Nat) : MetaTable :=
  assocReplace t path
    ⟨cache_entry_type_t.FILE, st.st_size, st.st_mtime, st.st_ctime,
      st.st_mode, st.st_uid, st.st_gid, st.st_ino, now, now + ctx.meta_ttl⟩

/-- `cache_meta_store_negative` (SQLite): INSERT OR REPLACE a row with
`type = CACHE_ENTRY_NEG`, zero attributes, `cached_at = now` and
`valid_until = now + meta_ttl` — the attribute TTL, not a separate
negative TTL. -/
def cache_meta_store_negative (ctx : MetaCtx) (t : MetaTable) (path : Bytes)
    (now : Nat) : MetaTable :=
  assocReplace t path
    ⟨cache_entry_type_t.NEG, 0, 0, 0, 0, 0, 0, 0, now, now + ctx.meta_ttl⟩

/-- `cache_meta_invalidate` (SQLite): DELETE the row for the path. -/
def cache_meta_invalidate (t : MetaTable) (path : Bytes) : MetaTable :=
  t.filter (fun row => row.1 ≠ path)

theorem assocFind_replace_self {α : Type} (t : List (Bytes × α)) (p : Bytes)
    (r : α) : assocFind (assocReplace t p r) p = some r := by
  induction t with
  | nil => simp [assocReplace, assocFind]
  | cons b bs ih =>
    by_cases hb : b.1 = p
    · rw [assocReplace, List.filter_cons_of_neg (by simpa using hb)]
      exact ih
    · rw [assocReplace, List.filter_cons_of_pos (by simpa using hb),
        List.cons_append]
      rw [← assocReplace]
      simp only [assocFind, if_neg hb]
      exact ih

theorem assocFind_filter_self {α : Type} (t : List (Bytes × α)) (p : Bytes) :
    assocFind (t.filter (fun row => row.1 ≠ p)) p = none := by
  induction t with
  | nil => rfl
  | cons b bs ih =>
    by_cases hb : b.1 = p
    · rw [List.filter_cons_of_neg (by simpa using hb)]
      exact ih
    · rw [List.filter_cons_of_pos (by simpa using hb)]
      simp only [assocFind, if_neg hb]
      exact ih

/- ### The older LMDB implementation, also present in cache_meta.c -/

namespace Lmdb

/-- `meta_entry_serialized_t`: the packed record stored in LMDB.  It has
no inode field. -/
structure meta_entry_serialized where
  type : cache_entry_type_t
  size : Nat
  mtime : Nat
  ctime : Nat
  mode : Nat
  uid : Nat
  gid : Nat
  cached_at : Nat
  valid_until : Nat
deriving DecidableEq

/-- The record built by the LMDB `cache_meta_store`: the kind is DIR for a
directory stat and FILE otherwise; `valid_until = now + meta_ttl`. -/
def serialize (ctx : MetaCtx) (st : StatBuf) (now : Nat) :
    meta_entry_serialized :=
  ⟨if S_ISDIR st.st_mode then cache_entry_type_t.DIR else cache_entry_type_t.FILE,
    st.st_size, st.st_mtime, st.st_ctime, st.st_mode, st.st_uid, st.st_gid,
    now, now + ctx.meta_ttl⟩

abbrev Table := List (Bytes × meta_entry_serialized)

/-- LMDB `cache_meta_store`: `mdb_put` of the serialized record. -/
def cache_meta_store (ctx : MetaCtx) (t : Table) (path : Bytes)
    (st : StatBuf) (now : Nat) : Table :=
  assocReplace t path (serialize ctx st now)

/-- LMDB `cache_meta_store_negative`: kind NEG, all other attribute fields
zero, and `valid_until = now + 2` — a hard-coded 2-second TTL. -/
def cache_meta_store_negative (t : Table) (path : Bytes) (now : Nat) :
    Table :=
  assocReplace t path
    ⟨cache_entry_type_t.NEG, 0, 0, 0, 0, 0, 0, now, now + 2⟩

end Lmdb

/- ### C2: the negative-entry TTL -/

/-- C2, the failing input evaluated.  With the default attribute TTL of 5
seconds, the SQLite `cache_meta_store_negative` stores a NEGATIVE record
whose `valid_until - cached_at` is 5 — the attribute TTL, not the claimed
2-second negative TTL.  (The LMDB variant in the same file does hard-code
2 seconds.) -/
theorem c2_bug_eval :
    (cache_meta_lookup (cache_meta_store_negative ⟨5, 10⟩ [] [97] 100)
        [97] 100).map (fun e => (e.1.type, e.1.valid_until - e.1.cached_at)) =
      some (cache_entry_type_t.NEG, 5) ∧
    (5 : Nat) ≠ 2 ∧
    (assocFind (Lmdb.cache_meta_store_negative [] [97] 100) [97]).map
        (fun e => (e.type, e.valid_until - e.cached_at)) =
      some (cache_entry_type_t.NEG, 2) := by
  refine ⟨by decide, by decide, by decide⟩

/- ### C3: the inode number is persisted -/

/-- C3, counterexample.  The SQLite `cache_meta_store` binds `st_ino` into
the stored row and `cache_meta_lookup` copies the stored inode back out:
storing a stat with inode 42 and looking the path up yields 42, and the
stored table depends on the inode value. -/
theorem c3_counterexample :
    (cache_meta_lookup
        (cache_meta_store ⟨5, 10⟩ [] [97] ⟨11, 200, 300, 420, 1, 2, 42⟩ 100)
        [97] 100).map (fun e => e.1.ino) = some 42 ∧
    (42 : Nat) ≠ 0 ∧
    cache_meta_store ⟨5, 10⟩ [] [97] ⟨11, 200, 300, 420, 1, 2, 42⟩ 100 ≠
      cache_meta_store ⟨5, 10⟩ [] [97] ⟨11, 200, 300, 420, 1, 2, 0⟩ 100 := by
  refine ⟨by decide, by decide, by decide⟩

/-- C3, amended.  The SQLite metadata store persists `st_ino` and its
lookup returns the stored inode for every path and stat; only the LMDB
variant's serialized record is independent of the inode. -/
theorem c3_amended :
    (∀ (ctx : MetaCtx) (t : MetaTable) (path : Bytes) (st : StatBuf)
      (now now' : Nat),
      (cache_meta_lookup (cache_meta_store ctx t path st now) path now').map
        (fun e => e.1.ino) = some st.st_ino) ∧
    (∀ (ctx : MetaCtx) (st : StatBuf) (now x : Nat),
      Lmdb.serialize ctx st now =
        Lmdb.serialize ctx { st with st_ino := x } now) := by
  constructor
  · intro ctx t path st now now'
    rw [cache_meta_lookup, cache_meta_store, assocFind_replace_self]
    rfl
  · intro ctx st now x
    rfl

/- ### C9: the stored record's kind and attribute round-trip -/

/-- C9, counterexample.  Mode 0o040755 describes a directory
(`S_ISDIR` holds), but the SQLite `cache_meta_store` stores
`CACHE_ENTRY_FILE` unconditionally, so the looked-up kind is FILE,
not DIR. -/
theorem c9_counterexample :
    S_ISDIR 16877 = true ∧
    (cache_meta_lookup
        (cache_meta_store ⟨5, 10⟩ [] [97] ⟨11, 200, 300, 16877, 1, 2, 9⟩ 100)
        [97] 100).map (fun e => e.1.type) = some cache_entry_type_t.FILE ∧
    cache_entry_type_t.FILE ≠ cache_entry_type_t.DIR := by
  refine ⟨by decide, by decide, by decide⟩

/-- C9, amended.  Store-then-lookup succeeds and returns the stat's size,
mtime, ctime, mode, uid and gid, but the SQLite store records kind FILE
for every stat, directories included (the true file type survives only
inside the stored mode bits); the LMDB variant does store DIR for
directories and FILE otherwise. -/
theorem c9_amended :
    (∀ (ctx : MetaCtx) (t : MetaTable) (path : Bytes) (st : StatBuf)
      (now now' : Nat),
      (cache_meta_lookup (cache_meta_store ctx t path st now) path now').map
        (fun e => (e.1.size, e.1.mtime, e.1.ctime, e.1.mode, e.1.uid,
          e.1.gid, e.1.type)) =
      some (st.st_size, st.st_mtime, st.st_ctime, st.st_mode, st.st_uid,
        st.st_gid, cache_entry_type_t.FILE)) ∧
    (∀ (ctx : MetaCtx) (st : StatBuf) (now : Nat),
      (Lmdb.serialize ctx st now).type =
        if S_ISDIR st.st_mode then cache_entry_type_t.DIR
        else cache_entry_type_t.FILE) := by
  constructor
  · intro ctx t path st now now'
    rw [cache_meta_lookup, cache_meta_store, assocFind_replace_self]
    rfl
  · intro ctx st now
    rfl

/- ### The directory cache (cache_meta.c, SQLite implementation) -/

/-- Byte-wise lexicographic order, SQLite's default text collation for the
`ORDER BY entry_name` clause. -/
def lexLe : Bytes → Bytes → Bool
  | [], _ => true
  | _ :: _, [] => false
  | a :: as, b :: bs => if a < b then true else if a = b then lexLe as bs else false

/-- One row of the `dir_entries` table (the `dir_path` key is the
association-list key; PK is `(dir_path, entry_name)`). -/
structure DirRow where
  entry_name : Bytes
  entry_type : cache_entry_type_t
  dir_mtime : Nat
  cached_at : Nat
  valid_until : Nat
deriving DecidableEq

abbrev DirTable := List (Bytes × DirRow)

/-- The row inserted for one directory entry by `cache_dir_store`. -/
def mkDirRow (e : Bytes × cache_entry_type_t) (dm ca vu : Nat) : DirRow :=
  ⟨e.1, e.2, dm, ca, vu⟩

/-- `INSERT OR REPLACE` on `dir_entries`, keyed by `(dir_path, entry_name)`. -/
def dir_insert_or_replace (t : DirTable) (path : Bytes) (r : DirRow) :
    DirTable :=
  t.filter (fun row => ¬(row.1 = path ∧ row.2.entry_name = r.entry_name)) ++
    [(path, r)]

/-- `SELECT ... WHERE dir_path = ? ORDER BY entry_name`: the rows of one
directory in name order. -/
def dirRows (t : DirTable) (path : Bytes) : List DirRow :=
  List.insertionSort (fun a b : DirRow => lexLe a.entry_name b.entry_name = true)
    ((t.filter (fun row => row.1 = path)).map Prod.snd)

/-- `cache_dir_lookup` (SQLite): count the rows of the directory; zero rows
is a MISS (`-1`); otherwise return every (name, type) pair in name order,
with `dir_mtime` and the validity flag taken from the first row. -/
def cache_dir_lookup (t : DirTable) (path : Bytes) (now : Nat) :
    Option (List (Bytes × cache_entry_type_t) × Nat × Bool) :=
  match dirRows t path with
  | [] => none
  | first :: rest =>
    some ((first :: rest).map (fun r => (r.entry_name, r.entry_type)),
      first.dir_mtime, decide (now < first.valid_until))

/-- `cache_dir_store` (SQLite): reject a NULL entry array; otherwise, in
one transaction, delete the directory's old rows and insert a row per
entry with the given `dir_mtime`, `cached_at = now` and
`valid_until = now + dir_ttl`.  `none` models the `-1` failure return
(the transaction is rolled back, the table unchanged). -/
def cache_dir_store (ctx : MetaCtx) (t : DirTable) (path : Bytes)
    (entries : Option (List (Bytes × cache_entry_type_t)))
    (dir_mtime now : Nat) : Option DirTable :=
  match entries with
  | none => none
  | some es =>
    some (es.foldl
      (fun acc e => dir_insert_or_replace acc path
        (mkDirRow e dir_mtime now (now + ctx.dir_ttl)))
      (t.filter (fun row => row.1 ≠ path)))

/-- `cache_dir_invalidate` (SQLite): delete all rows of the directory. -/
def cache_dir_invalidate (t : DirTable) (path : Bytes) : DirTable :=
  t.filter (fun row => row.1 ≠ path)

/- ### Lemmas about the directory cache -/

theorem filter_ne_filter_eq_nil (t : DirTable) (path : Bytes) :
    (t.filter (fun row => row.1 ≠ path)).filter (fun row => row.1 = path)
      = [] := by
  rw [List.filter_eq_nil_iff]
  intro row hrow
  have hne := List.of_mem_filter hrow
  simp only [decide_eq_true_eq] at hne
  simp only [decide_eq_true_eq]
  exact hne

/-- With pairwise-distinct entry names, the insert loop of
`cache_dir_store` appends exactly one row per entry for the directory. -/
theorem dir_store_rows (path : Bytes) (dm ca vu : Nat)
    (es : List (Bytes × cache_entry_type_t)) :
    ∀ acc : DirTable,
      (∀ e ∈ es, ∀ row ∈ acc, row.1 = path → row.2.entry_name ≠ e.1) →
      (es.map Prod.fst).Nodup →
      (es.foldl (fun acc e =>
          dir_insert_or_replace acc path (mkDirRow e dm ca vu)) acc).filter
        (fun row => row.1 = path) =
      acc.filter (fun row => row.1 = path) ++
        es.map (fun e => (path, mkDirRow e dm ca vu)) := by
  induction es with
  | nil =>
    intro acc hsep hnd
    simp
  | cons e es ih =>
    intro acc hsep hnd
    rw [List.foldl_cons]
    have hacc1 : dir_insert_or_replace acc path (mkDirRow e dm ca vu) =
        acc ++ [(path, mkDirRow e dm ca vu)] := by
      rw [dir_insert_or_replace]
      congr 1
      rw [List.filter_eq_self]
      intro row hrow
      simp only [decide_eq_true_eq, not_and]
      intro h1 h2
      exact hsep e (List.mem_cons_self e es) row hrow h1 h2
    rw [List.map_cons, List.nodup_cons] at hnd
    have hsep1 : ∀ e' ∈ es, ∀ row ∈ acc ++ [(path, mkDirRow e dm ca vu)],
        row.1 = path → row.2.entry_name ≠ e'.1 := by
      intro e' he' row hrow h1
      rcases List.mem_append.1 hrow with hr | hr
      · exact hsep e' (List.mem_cons_of_mem e he') row hr h1
      · rcases List.mem_singleton.1 hr with rfl
        show e.1 ≠ e'.1
        intro hc
        exact hnd.1 (hc ▸ List.mem_map_of_mem Prod.fst he')
    rw [hacc1, ih _ hsep1 hnd.2]
    rw [List.filter_append, List.filter_cons_of_pos (by simp),
      List.filter_nil, List.map_cons]
    simp

/-- Looking up a directory with no cached rows is a MISS. -/
theorem cache_dir_lookup_none {t : DirTable} {path : Bytes} (now : Nat)
    (h : t.filter (fun row => row.1 = path) = []) :
    cache_dir_lookup t path now = none := by
  unfold cache_dir_lookup dirRows
  rw [h]
  rfl

/- ### C7: atomic replace of a directory listing -/

/-- C7, counterexample.  Storing an empty entry list (non-NULL array,
`count = 0`) succeeds — the transaction deletes the old rows, inserts
nothing and commits — but the subsequent lookup of the same directory
reports a MISS instead of the newly stored (empty) listing, because zero
rows are indistinguishable from an uncached directory. -/
theorem c7_counterexample :
    (cache_dir_store ⟨5, 10⟩
        [([100], ⟨[120], cache_entry_type_t.FILE, 3, 50, 60⟩)]
        [100] (some []) 7 100).isSome = true ∧
    (cache_dir_store ⟨5, 10⟩
        [([100], ⟨[120], cache_entry_type_t.FILE, 3, 50, 60⟩)]
        [100] (some []) 7 100).bind
      (fun t2 => cache_dir_lookup t2 [100] 100) = none := by
  refine ⟨by decide, by decide⟩

/-- C7, amended.  For a non-empty entry list with pairwise-distinct names,
`cache_dir_store` succeeds and a subsequent `cache_dir_lookup` returns
exactly the stored (entry_name, entry_kind) pairs (in name order, a
permutation of the stored list) together with the stored `dir_mtime`; a
store with a NULL entry array fails and leaves the table unchanged.
Storing an empty or duplicate-name list is the exception: zero surviving
rows read back as a MISS, and a duplicated name keeps only its last
entry. -/
theorem c7_amended (ctx : MetaCtx) (t : DirTable) (path : Bytes)
    (es : List (Bytes × cache_entry_type_t)) (dm now now' : Nat)
    (t2 : DirTable) (hne : es ≠ []) (hnd : (es.map Prod.fst).Nodup)
    (hstore : cache_dir_store ctx t path (some es) dm now = some t2) :
    (∃ l v, cache_dir_lookup t2 path now' = some (l, dm, v) ∧
      List.Perm l es) ∧
    (∀ dm2 now2, cache_dir_store ctx t path none dm2 now2 = none) := by
  constructor
  · have ht2 : t2 = es.foldl
        (fun acc e => dir_insert_or_replace acc path
          (mkDirRow e dm now (now + ctx.dir_ttl)))
        (t.filter (fun row => row.1 ≠ path)) := by
      have h := hstore
      unfold cache_dir_store at h
      exact (Option.some.inj h).symm
    have hsep : ∀ e ∈ es, ∀ row ∈ t.filter (fun row => row.1 ≠ path),
        row.1 = path → row.2.entry_name ≠ e.1 := by
      intro e he row hrow h1
      have hne' := List.of_mem_filter hrow
      simp only [decide_eq_true_eq] at hne'
      exact absurd h1 hne'
    have hrows : t2.filter (fun row => row.1 = path) =
        es.map (fun e => (path, mkDirRow e dm now (now + ctx.dir_ttl))) := by
      rw [ht2, dir_store_rows path dm now (now + ctx.dir_ttl) es _ hsep hnd,
        filter_ne_filter_eq_nil, List.nil_append]
    have hmapsnd : (t2.filter (fun row => row.1 = path)).map Prod.snd =
        es.map (fun e => mkDirRow e dm now (now + ctx.dir_ttl)) := by
      rw [hrows, List.map_map]
      rfl
    have hperm : List.Perm (dirRows t2 path)
        (es.map (fun e => mkDirRow e dm now (now + ctx.dir_ttl))) := by
      unfold dirRows
      rw [hmapsnd]
      exact List.perm_insertionSort _ _
    cases hdr : dirRows t2 path with
    | nil =>
      exfalso
      have hlen := hperm.length_eq
      rw [hdr] at hlen
      simp only [List.length_nil, List.length_map] at hlen
      exact hne (List.eq_nil_of_length_eq_zero hlen.symm)
    | cons first rest =>
      refine ⟨(first :: rest).map (fun r => (r.entry_name, r.entry_type)),
        decide (now' < first.valid_until), ?_, ?_⟩
      · unfold cache_dir_lookup
        rw [hdr]
        have hfirst : first.dir_mtime = dm := by
          have hmem : first ∈ dirRows t2 path := by
            rw [hdr]; exact List.mem_cons_self first rest
          have hmem2 := (hperm.mem_iff).1 hmem
          rcases List.mem_map.1 hmem2 with ⟨e, _, he⟩
          rw [← he]
          rfl
        show some ((first :: rest).map (fun r => (r.entry_name, r.entry_type)),
          first.dir_mtime, decide (now' < first.valid_until)) = _
        rw [hfirst]
      · have h1 : List.Perm ((first :: rest).map
            (fun r => (r.entry_name, r.entry_type)))
            ((es.map (fun e => mkDirRow e dm now (now + ctx.dir_ttl))).map
              (fun r => (r.entry_name, r.entry_type))) := by
          refine List.Perm.map _ ?_
          rw [← hdr]
          exact hperm
        have h2 : (es.map (fun e => mkDirRow e dm now (now + ctx.dir_ttl))).map
            (fun r => (r.entry_name, r.entry_type)) = es := by
          rw [List.map_map]
          have : ((fun r : DirRow => (r.entry_name, r.entry_type)) ∘
              fun e => mkDirRow e dm now (now + ctx.dir_ttl)) =
              fun e : Bytes × cache_entry_type_t => e := by
            funext e
            show (e.1, e.2) = e
            exact rfl
          rw [this]
          simp
        rw [h2] at h1
        exact h1
  · intro dm2 now2
    rfl

/-- Witness for `c7_amended` at concrete inputs. -/
theorem c7_amended_witness :
    (∃ l v, cache_dir_lookup
        [([100], mkDirRow ([120], cache_entry_type_t.FILE) 7 100 110)]
        [100] 100 = some (l, 7, v) ∧
      List.Perm l [([120], cache_entry_type_t.FILE)]) ∧
    (∀ dm2 now2, cache_dir_store ⟨5, 10⟩ [] [100] none dm2 now2 = none) :=
  c7_amended ⟨5, 10⟩ [] [100] [([120], cache_entry_type_t.FILE)] 7 100 100
    [([100], mkDirRow ([120], cache_entry_type_t.FILE) 7 100 110)]
    (by decide) (by decide) (by decide)

/- ### C10: empty directory listings are never served -/

/-- C10, confirmed.  A directory with zero cached rows reports a MISS; a
NULL entry array is rejected by `cache_dir_store`; and storing an entry
list of length zero leaves nothing retrievable — a later lookup of that
directory is again a MISS.  A readdir of an empty directory can therefore
never be answered from this cache. -/
theorem c10_theorem :
    (∀ (t : DirTable) (path : Bytes) (now : Nat),
      t.filter (fun row => row.1 = path) = [] →
      cache_dir_lookup t path now = none) ∧
    (∀ (ctx : MetaCtx) (t : DirTable) (path : Bytes) (dm now : Nat),
      cache_dir_store ctx t path none dm now = none) ∧
    (∀ (ctx : MetaCtx) (t : DirTable) (path : Bytes) (dm now now' : Nat)
      (t2 : DirTable),
      cache_dir_store ctx t path (some []) dm now = some t2 →
      cache_dir_lookup t2 path now' = none) := by
  refine ⟨?_, ?_, ?_⟩
  · intro t path now h
    exact cache_dir_lookup_none now h
  · intro ctx t path dm now
    rfl
  · intro ctx t path dm now now' t2 hstore
    have ht2 : t2 = t.filter (fun row => row.1 ≠ path) := by
      unfold cache_dir_store at hstore
      exact (Option.some.inj hstore).symm
    refine cache_dir_lookup_none now' ?_
    rw [ht2]
    exact filter_ne_filter_eq_nil t path

/-- Witness for `c10_theorem` at concrete inputs. -/
theorem c10_theorem_witness :
    cache_dir_lookup
      [([100], mkDirRow ([120], cache_entry_type_t.FILE) 7 100 110)]
      [99] 100 = none ∧
    cache_dir_store ⟨5, 10⟩ [] [100] none 7 100 = none ∧
    cache_dir_lookup ([] : DirTable) [100] 100 = none := by
  refine ⟨?_, ?_, ?_⟩
  · exact c10_theorem.1 _ [99] 100 (by decide)
  · exact c10_theorem.2.1 ⟨5, 10⟩ [] [100] 7 100
  · exact c10_theorem.2.2 ⟨5, 10⟩
      [([100], mkDirRow ([120], cache_entry_type_t.FILE) 7 100 110)]
      [100] 7 100 100 [] (by decide)

/- ### The coherency engine (cache_coherency.c) and C8 -/

/-- `cache_coherency_validate_meta`: a cached record is valid against the
backend stat exactly when its mtime and size both match. -/
def cache_coherency_validate_meta (cached : MetaRow) (st : StatBuf) : Bool :=
  cached.mtime == st.st_mtime && cached.size == st.st_size

/-- `cache_coherency_check_and_invalidate`: look the path up in the
metadata store (the validity flag is ignored); if a record exists and its
(mtime, size) pair differs from the backend's, delete the attribute record
and every block of the path; otherwise change nothing. -/
def cache_coherency_check_and_invalidate (mt : MetaTable) (bs : BlockState)
    (path : Bytes) (st : StatBuf) (now : Nat) : MetaTable × BlockState :=
  match cache_meta_lookup mt path now with
  | none => (mt, bs)
  | some (cached, _) =>
    if cache_coherency_validate_meta cached st then (mt, bs)
    else (cache_meta_invalidate mt path, cache_block_invalidate_file bs path)

/-- After `cache_block_invalidate_file`, no block of the path remains. -/
theorem read_after_invalidate_file (s : BlockState) (path : Bytes)
    (i sz off : Nat) :
    cache_block_read (cache_block_invalidate_file s path) path i sz off =
      none := by
  unfold cache_block_read cache_block_invalidate_file
  rw [findRec_filter_none _ (fun b hb => ?_)]
  · rfl
  · simp only [decide_eq_true_eq] at hb
    intro hc
    exact hb (congrArg Prod.fst hc)

/-- C8, confirmed.  The open-time coherence check removes the cached
attribute record and every cached block of the path exactly when a cached
record exists whose (mtime, size) pair differs from the backend's; when
the pair matches, or no record is cached, neither the metadata store nor
the block store is modified. -/
theorem c8_theorem (mt : MetaTable) (bs : BlockState) (path : Bytes)
    (st : StatBuf) (now : Nat) :
    (∀ cached v, cache_meta_lookup mt path now = some (cached, v) →
      (cached.mtime ≠ st.st_mtime ∨ cached.size ≠ st.st_size) →
      cache_meta_lookup
        (cache_coherency_check_and_invalidate mt bs path st now).1 path now
        = none ∧
      ∀ i sz off, cache_block_read
        (cache_coherency_check_and_invalidate mt bs path st now).2
        path i sz off = none) ∧
    (∀ cached v, cache_meta_lookup mt path now = some (cached, v) →
      cached.mtime = st.st_mtime → cached.size = st.st_size →
      cache_coherency_check_and_invalidate mt bs path st now = (mt, bs)) ∧
    (cache_meta_lookup mt path now = none →
      cache_coherency_check_and_invalidate mt bs path st now = (mt, bs)) := by
  refine ⟨?_, ?_, ?_⟩
  · intro cached v hlook hdiff
    have hval : cache_coherency_validate_meta cached st = false := by
      unfold cache_coherency_validate_meta
      rcases hdiff with h | h
      · simp [h]
      · simp [h]
    have hred : cache_coherency_check_and_invalidate mt bs path st now =
        (cache_meta_invalidate mt path, cache_block_invalidate_file bs path) := by
      unfold cache_coherency_check_and_invalidate
      rw [hlook]
      simp [hval]
    rw [hred]
    constructor
    · unfold cache_meta_lookup cache_meta_invalidate
      rw [assocFind_filter_self]
      rfl
    · intro i sz off
      exact read_after_invalidate_file bs path i sz off
  · intro cached v hlook hm hs
    have hval : cache_coherency_validate_meta cached st = true := by
      unfold cache_coherency_validate_meta
      simp [hm, hs]
    unfold cache_coherency_check_and_invalidate
    rw [hlook]
    simp [hval]
  · intro hlook
    unfold cache_coherency_check_and_invalidate
    rw [hlook]

/-- Witness for `c8_theorem` at concrete inputs: a cached record whose
size differs from the backend's is flushed together with the path's
blocks; a matching record leaves both stores untouched. -/
theorem c8_theorem_witness :
    (cache_meta_lookup
        [([97], (⟨cache_entry_type_t.FILE, 11, 200, 300, 420, 1, 2, 9,
          100, 105⟩ : MetaRow))]
        [97] 101 = some (⟨cache_entry_type_t.FILE, 11, 200, 300, 420, 1, 2, 9,
          100, 105⟩, true) →
      ((11 : Nat) ≠ 11 ∨ (11 : Nat) ≠ 12) →
      cache_meta_lookup
        (cache_coherency_check_and_invalidate
          [([97], ⟨cache_entry_type_t.FILE, 11, 200, 300, 420, 1, 2, 9,
            100, 105⟩)]
          cache_block_init [97] ⟨12, 200, 300, 420, 1, 2, 9⟩ 101).1 [97] 101
        = none ∧
      ∀ i sz off, cache_block_read
        (cache_coherency_check_and_invalidate
          [([97], ⟨cache_entry_type_t.FILE, 11, 200, 300, 420, 1, 2, 9,
            100, 105⟩)]
          cache_block_init [97] ⟨12, 200, 300, 420, 1, 2, 9⟩ 101).2
        [97] i sz off = none) ∧
    cache_coherency_check_and_invalidate
      [([97], ⟨cache_entry_type_t.FILE, 11, 200, 300, 420, 1, 2, 9,
        100, 105⟩)]
      cache_block_init [97] ⟨11, 200, 300, 420, 1, 2, 9⟩ 101 =
      ([([97], ⟨cache_entry_type_t.FILE, 11, 200, 300, 420, 1, 2, 9,
        100, 105⟩)], cache_block_init) := by
  constructor
  · intro h1 h2
    exact (c8_theorem
      [([97], ⟨cache_entry_type_t.FILE, 11, 200, 300, 420, 1, 2, 9, 100, 105⟩)]
      cache_block_init [97] ⟨12, 200, 300, 420, 1, 2, 9⟩ 101).1
      ⟨cache_entry_type_t.FILE, 11, 200, 300, 420, 1, 2, 9, 100, 105⟩ true
      (by decide) (Or.inr (by decide))
  · exact (c8_theorem
      [([97], ⟨cache_entry_type_t.FILE, 11, 200, 300, 420, 1, 2, 9, 100, 105⟩)]
      cache_block_init [97] ⟨11, 200, 300, 420, 1, 2, 9⟩ 101).2.1
      ⟨cache_entry_type_t.FILE, 11, 200, 300, 420, 1, 2, 9, 100, 105⟩ true
      (by decide) (by decide) (by decide)

end CacheFS
